import Mathlib

/-!
Verification of the receipt-text parser of `finance_tracker.py`
(`parse_receipt_text`, the only algorithmic component of the repository).

Strings are modelled as `List Char`; Python `float(...)` string conversion is
modelled by `floatOfString : Str → Option ℚ` over the finite decimal grammar
(optional sign, digits with an optional fraction part, optional exponent;
the `inf`/`nan` literals and digit-group underscores are not modelled, and
values are exact rationals, so binary floating-point rounding is idealised
away).  Python `round(x, 2)` is modelled by `round2` (rounding to the nearest
multiple of 1/100; tie-breaking differences with Python's banker's rounding do
not affect any statement below, which only use values already at 2 decimals
or the `n/100` shape of the result).  Regular-expression scanning
(`re.findall` / `re.sub` for the four patterns the source uses) is modelled by
fuel-indexed scanners; the fuel is the input length, which is proved (and in
concrete evaluations simply computed) to suffice.  Character classes (`\d`,
`\w`, `str.lower`, `str.strip`) are modelled on their ASCII fragment.
-/

set_option maxRecDepth 20000

namespace FinanceTracker

abbrev Str := List Char

/-- Python whitespace for `str.strip()` (ASCII fragment). -/
def pyWs (c : Char) : Bool :=
  c == ' ' || c == '\t' || c == '\n' || c == '\r' || c == '\x0b' || c == '\x0c'

/-- Python `s.strip()`. -/
def pyStrip (s : Str) : Str :=
  ((s.dropWhile pyWs).reverse.dropWhile pyWs).reverse

/-- Python `s.split('\n')` (keeps empty chunks, like the source's `split`). -/
def splitOnNl : Str → List Str
  | [] => [[]]
  | c :: rest =>
    if c = '\n' then [] :: splitOnNl rest
    else (c :: (splitOnNl rest).headD []) :: (splitOnNl rest).tail

/-- `lines = [x.strip() for x in text.strip().split('\n') if x.strip()]`. -/
def normalizeLines (text : Str) : List Str :=
  ((splitOnNl (pyStrip text)).map pyStrip).filter (fun l => !l.isEmpty)

/-- Split a string into its maximal leading digit run and the remainder. -/
def digitSpan : Str → Str × Str
  | [] => ([], [])
  | c :: rest =>
    if c.isDigit then (c :: (digitSpan rest).1, (digitSpan rest).2)
    else ([], c :: rest)

/-- Numeric value of a digit string (most significant digit first). -/
def natOfDigits (s : Str) : ℕ :=
  s.foldl (fun a c => a * 10 + (c.toNat - 48)) 0

/-- Exponent digits of a float literal: all remaining characters must be digits. -/
def expDigits (s : Str) : Option ℤ :=
  if s ≠ [] ∧ s.all Char.isDigit then some ((natOfDigits s : ℤ)) else none

/-- Optional exponent part (`e`/`E`, optional sign, digits) closing a float literal;
`none` models a `ValueError` from trailing garbage. -/
def parseExpPart : Str → Option ℤ
  | [] => some 0
  | c :: rest =>
    if c = 'e' ∨ c = 'E' then
      match rest with
      | '+' :: r2 => expDigits r2
      | '-' :: r2 => (expDigits r2).map (fun n => -n)
      | _ => expDigits rest
    else none

/-- Unsigned part of Python `float(...)`: digits, optional `.` and fraction
digits (at least one digit overall), optional exponent. -/
def floatCore (t : Str) : Option ℚ :=
  match (digitSpan t).2 with
  | '.' :: r2 =>
    if (digitSpan t).1 = [] ∧ (digitSpan r2).1 = [] then none
    else
      (parseExpPart (digitSpan r2).2).map fun e =>
        ((natOfDigits (digitSpan t).1 : ℚ) +
            (natOfDigits (digitSpan r2).1 : ℚ) / 10 ^ (digitSpan r2).1.length) * 10 ^ e
  | r1 =>
    if (digitSpan t).1 = [] then none
    else (parseExpPart r1).map fun e => (natOfDigits (digitSpan t).1 : ℚ) * 10 ^ e

/-- Python `float(s)` on the finite decimal grammar; `none` models `ValueError`. -/
def floatOfString (s : Str) : Option ℚ :=
  match pyStrip s with
  | [] => none
  | c :: rest =>
    if c = '+' then floatCore rest
    else if c = '-' then (floatCore rest).map (fun q => -q)
    else floatCore (c :: rest)

/-- Python `round(q, 2)` (to the nearest multiple of 1/100), via the
computable `Rat.floor` so that concrete results evaluate in the kernel. -/
def round2 (q : ℚ) : ℚ := (((q * 100 + 1 / 2).floor : ℤ) : ℚ) / 100

/-- A parsed line item `{"description": ..., "amount": ...}`. -/
structure LineItem where
  description : Str
  amount : ℚ
deriving DecidableEq, Repr

/-- `price_line.replace("$", "").replace("S", "").replace(",", "")`. -/
def cleanPrice (s : Str) : Str := s.filter fun c => !(c == '$' || c == 'S' || c == ',')

/-- Python `str.lower()` on a character (ASCII fragment). -/
def toLowerC (c : Char) : Char :=
  if 'A' ≤ c ∧ c ≤ 'Z' then Char.ofNat (c.toNat + 32) else c

/-- Python `s.lower()` (ASCII fragment). -/
def lowerStr (s : Str) : Str := s.map toLowerC

/-- The reserved summary keywords `["total", "amount", "change", "cash"]`. -/
def reservedKeys : List Str :=
  [['t','o','t','a','l'], ['a','m','o','u','n','t'], ['c','h','a','n','g','e'], ['c','a','s','h']]

/-- `any(desc.lower().startswith(x) for x in ["total", "amount", "change", "cash"])`. -/
def isReserved (d : Str) : Bool :=
  reservedKeys.any fun k => k.isPrefixOf (lowerStr d)

/-- The paired-line strategy: the `while i < len(lines) - 1` cursor loop of
`parse_receipt_text` (consume two lines on a successful description/price
pair, otherwise advance by one line). -/
def pairedItems : List Str → List LineItem
  | [] => []
  | [_] => []
  | d :: p :: rest =>
    match floatOfString (cleanPrice p) with
    | some q =>
      if isReserved d then pairedItems (p :: rest)
      else { description := d, amount := round2 q } :: pairedItems rest
    | none => pairedItems (p :: rest)

/-! ### Regex scanners

`re.findall` / `re.sub` are modelled as left-to-right scanners that try the
pattern at each position, skip past a match (matches are non-overlapping) and
advance one character on failure.  The fuel argument makes the recursion
structural; `fuel = s.length` always suffices because every match is
non-empty. -/

/-- `re.findall` for a matcher `m` that returns the matched text and the rest. -/
def scanAllF (m : Str → Option (Str × Str)) : ℕ → Str → List Str
  | 0, _ => []
  | _ + 1, [] => []
  | fuel + 1, c :: rest =>
    match m (c :: rest) with
    | some (t, r) => t :: scanAllF m fuel r
    | none => scanAllF m fuel rest

/-- `re.sub(pattern, "", s)` for a matcher `m`. -/
def subAllF (m : Str → Option (Str × Str)) : ℕ → Str → Str
  | 0, s => s
  | _ + 1, [] => []
  | fuel + 1, c :: rest =>
    match m (c :: rest) with
    | some (_, r) => subAllF m fuel r
    | none => c :: subAllF m fuel rest

/-- Matcher for `(\d+X\d{2})` where `X` is the separator (`.` or `,`):
a maximal digit run, the separator, then exactly two digits. -/
def matchSep2 (sep : Char) (s : Str) : Option (Str × Str) :=
  match (digitSpan s).2 with
  | c :: a :: b :: r3 =>
    if (digitSpan s).1 ≠ [] ∧ c = sep ∧ a.isDigit ∧ b.isDigit then
      some ((digitSpan s).1 ++ c :: a :: [b], r3)
    else none
  | _ => none

/-- Matcher for `\d+[\.,]?\d*`: a maximal digit run, an optional single `.` or
`,`, then a maximal (possibly empty) digit run. -/
def matchTotalNum (s : Str) : Option (Str × Str) :=
  if (digitSpan s).1 = [] then none
  else
    match (digitSpan s).2 with
    | c :: r2 =>
      if c = '.' ∨ c = ',' then
        some ((digitSpan s).1 ++ c :: (digitSpan r2).1, (digitSpan r2).2)
      else some ((digitSpan s).1, c :: r2)
    | [] => some ((digitSpan s).1, [])

/-- Python regex word character (ASCII fragment), for `\b`. -/
def isWordChar (c : Char) : Bool := c.isAlphanum || c == '_'

/-- `re.findall(r"\b(\d+)\b", s)`: the flag records whether the character just
before the current position is a word character (so `\b` holds iff it is not). -/
def bareFindF : ℕ → Bool → Str → List Str
  | 0, _, _ => []
  | _ + 1, _, [] => []
  | fuel + 1, prevW, c :: rest =>
    if c.isDigit && !prevW then
      match (digitSpan rest).2 with
      | [] => [c :: (digitSpan rest).1]
      | d :: _ =>
        if !isWordChar d then (c :: (digitSpan rest).1) :: bareFindF fuel true (digitSpan rest).2
        else bareFindF fuel true rest
    else bareFindF fuel (isWordChar c) rest

/-- `re.sub(r"\b(\d+)\b", "", s)`. -/
def bareSubF : ℕ → Bool → Str → Str
  | 0, _, s => s
  | _ + 1, _, [] => []
  | fuel + 1, prevW, c :: rest =>
    if c.isDigit && !prevW then
      match (digitSpan rest).2 with
      | [] => []
      | d :: _ =>
        if !isWordChar d then bareSubF fuel true (digitSpan rest).2
        else c :: bareSubF fuel true rest
    else c :: bareSubF fuel (isWordChar c) rest

/-- `re.findall(r"(\d+\.\d{2})", s)` (and the comma variant). -/
def findSep2 (sep : Char) (s : Str) : List Str := scanAllF (matchSep2 sep) s.length s

/-- `re.sub(r"(\d+\.\d{2})", "", s)` (and the comma variant). -/
def subSep2 (sep : Char) (s : Str) : Str := subAllF (matchSep2 sep) s.length s

/-- `re.findall(r"\b(\d+)\b", s)`. -/
def bareFind (s : Str) : List Str := bareFindF s.length false s

/-- `re.sub(r"\b(\d+)\b", "", s)`. -/
def bareSub (s : Str) : Str := bareSubF s.length false s

/-- `re.findall(r"\d+[\.,]?\d*", s)` (the total-line pattern). -/
def totalNums (s : Str) : List Str := scanAllF matchTotalNum s.length s

/-- One pattern attempt of the fallback strategy: `none` means "try the next
pattern" (no match, or `float` raised and the `except` clause `continue`d);
`some r` means the `break` was reached, with `r` the emitted item if the
description guard passed. -/
def patAttempt (ms : List Str) (subbed : Str) : Option (Option LineItem) :=
  if ms = [] then none
  else
    (floatOfString ((ms.getLast?.getD []).filter fun c => !(c == ','))).map fun q =>
      if pyStrip subbed ≠ [] ∧ (pyStrip subbed).length > 1 then
        some { description := (pyStrip subbed).take 50, amount := round2 q }
      else none

/-- The single-line fallback strategy on one line: try the three price patterns
in order; the first attempt that reaches the `break` (returning `some r`) wins. -/
def fallbackLine (line : Str) : Option LineItem :=
  (patAttempt (findSep2 '.' line) (subSep2 '.' line)).getD
    ((patAttempt (findSep2 ',' line) (subSep2 ',' line)).getD
      ((patAttempt (bareFind line) (bareSub line)).getD none))

/-- The fallback strategy over all lines (`for line in lines: ...`). -/
def fallbackItems (lines : List Str) : List LineItem :=
  lines.filterMap fallbackLine

/-- Python `pat in s` (substring containment). -/
def containsSub (pat : Str) : Str → Bool
  | [] => pat.isEmpty
  | c :: rest => pat.isPrefixOf (c :: rest) || containsSub pat rest

/-- `'total' in line.lower()`. -/
def hasTotal (line : Str) : Bool :=
  containsSub ['t','o','t','a','l'] (lowerStr line)

/-- `parts[-1].replace(",", "").replace("S", "")`. -/
def cleanTotalTok (s : Str) : Str := s.filter fun c => !(c == ',' || c == 'S')

/-- Total extraction: first line whose lowercase form contains "total" and has
at least one `\d+[\.,]?\d*` match wins.  The `float` call here is not guarded
by a `try` in the source, so a conversion failure (`none`) would escape
`parse_receipt_text` as an exception. -/
def extractTotalE : List Str → Option ℚ
  | [] => some 0
  | line :: rest =>
    if hasTotal line then
      if totalNums line = [] then extractTotalE rest
      else floatOfString (cleanTotalTok ((totalNums line).getLast?.getD []))
    else extractTotalE rest

/-- The result `{"items": ..., "total": ...}` of `parse_receipt_text`. -/
structure ParseResult where
  items : List LineItem
  total : ℚ
deriving DecidableEq, Repr

/-- `parse_receipt_text`, with `none` modelling an uncaught exception. -/
def parseE (text : Str) : Option ParseResult :=
  match extractTotalE (normalizeLines text) with
  | some t =>
    some { items := if (pairedItems (normalizeLines text)).isEmpty
                    then fallbackItems (normalizeLines text)
                    else pairedItems (normalizeLines text)
           total := round2 t }
  | none => none

/-- `parse_receipt_text` as a total function (no input makes `parseE` return
`none`; this is proved below). -/
def parse (text : Str) : ParseResult := (parseE text).getD { items := [], total := 0 }

/-- `parse_receipt_text` on a Lean string literal. -/
def parseS (text : String) : ParseResult := parse text.data

/-! ### Item formatting, for the round-trip property

Modelled from the spec: the repository has no item formatter.  The idempotence
property of spec section 8 re-parses "the already-extracted items'
descriptions/amounts (formatted back as description/amount pairs)" through the
paired-line strategy.  `fmtItems` realizes exactly that formatting, printing
each amount (all parsed amounts have the form `k / 100`) with a sign and two
decimal digits. -/

/-- The decimal digit character for `d < 10`. -/
def digitChar (d : ℕ) : Char := Char.ofNat (48 + d)

/-- Decimal digits of `n`, least significant first (fuel-indexed; `fuel = n`
suffices). -/
def natDigitsF : ℕ → ℕ → Str
  | 0, _ => []
  | _ + 1, 0 => []
  | fuel + 1, n => digitChar (n % 10) :: natDigitsF fuel (n / 10)

/-- Decimal digits of `n`, most significant first (empty for 0). -/
def natDigits (n : ℕ) : Str := (natDigitsF n n).reverse

/-- Modelled from the spec: print `n` cents as an amount with two decimals. -/
def fmtCents (n : ℕ) : Str :=
  natDigits (n / 100) ++ '.' :: [digitChar (n % 100 / 10), digitChar (n % 100 % 10)]

/-- Modelled from the spec: print an amount of the form `k / 100`. -/
def fmtAmount (q : ℚ) : Str :=
  if (q * 100).floor < 0 then '-' :: fmtCents (q * 100).floor.natAbs
  else fmtCents (q * 100).floor.toNat

/-- Modelled from the spec: format items back as "description\namount" line
pairs, joined by newlines. -/
def fmtItems : List LineItem → Str
  | [] => []
  | [it] => it.description ++ ('\n' :: fmtAmount it.amount)
  | it :: it2 :: rest =>
    it.description ++ ('\n' :: (fmtAmount it.amount ++ ('\n' :: fmtItems (it2 :: rest))))

/-- The line sequence a formatted item list normalizes back to. -/
def interleave : List LineItem → List Str
  | [] => []
  | it :: rest => it.description :: fmtAmount it.amount :: interleave rest

/-! ### Basic lemmas on stripping and splitting -/

attribute [local semireducible] Rat.add Rat.sub Rat.mul Rat.inv

theorem pyStrip_subset {c : Char} {s : Str} (h : c ∈ pyStrip s) : c ∈ s := by
  unfold pyStrip at h
  rw [List.mem_reverse] at h
  have h1 := (List.dropWhile_sublist (l := (s.dropWhile pyWs).reverse) (p := pyWs)).subset h
  rw [List.mem_reverse] at h1
  exact (List.dropWhile_sublist (l := s) (p := pyWs)).subset h1

theorem dropWhile_eq_self_of_all {p : Char → Bool} {s : Str}
    (h : ∀ c ∈ s, p c = false) : s.dropWhile p = s := by
  cases s with
  | nil => rfl
  | cons c r => rw [List.dropWhile_cons, h c (by simp)]; simp

theorem pyStrip_eq_self_of_all {s : Str} (h : ∀ c ∈ s, pyWs c = false) : pyStrip s = s := by
  unfold pyStrip
  rw [dropWhile_eq_self_of_all h, dropWhile_eq_self_of_all (fun c hc => h c (by
    rw [List.mem_reverse] at hc; exact hc)), List.reverse_reverse]

theorem pyStrip_length_le (s : Str) : (pyStrip s).length ≤ s.length := by
  unfold pyStrip
  calc ((s.dropWhile pyWs).reverse.dropWhile pyWs).reverse.length
      = ((s.dropWhile pyWs).reverse.dropWhile pyWs).length := by rw [List.length_reverse]
    _ ≤ (s.dropWhile pyWs).reverse.length :=
        (List.dropWhile_sublist _).length_le
    _ = (s.dropWhile pyWs).length := by rw [List.length_reverse]
    _ ≤ s.length := (List.dropWhile_sublist _).length_le

theorem head_not_ws_of_strip_fixed {s : Str} {c : Char}
    (h : pyStrip s = s) (hc : s.head? = some c) : pyWs c = false := by
  cases s with
  | nil => simp at hc
  | cons a r =>
    have hac : a = c := by simpa using hc
    by_contra hw
    rw [Bool.not_eq_false] at hw
    have hwa : pyWs a = true := by rw [hac]; exact hw
    have hlen : (pyStrip (a :: r)).length ≤ r.length := by
      unfold pyStrip
      rw [List.dropWhile_cons, hwa]
      simp only [if_true]
      calc ((r.dropWhile pyWs).reverse.dropWhile pyWs).reverse.length
          = ((r.dropWhile pyWs).reverse.dropWhile pyWs).length := by rw [List.length_reverse]
        _ ≤ (r.dropWhile pyWs).reverse.length := (List.dropWhile_sublist _).length_le
        _ = (r.dropWhile pyWs).length := by rw [List.length_reverse]
        _ ≤ r.length := (List.dropWhile_sublist _).length_le
    rw [h] at hlen
    simp at hlen

theorem splitOnNl_ne_nil (s : Str) : splitOnNl s ≠ [] := by
  cases s with
  | nil => simp [splitOnNl]
  | cons c rest =>
    unfold splitOnNl
    by_cases h : c = '\n' <;> simp [h]

theorem splitOnNl_mem {s : Str} {l : Str} (hl : l ∈ splitOnNl s) (c : Char) (hc : c ∈ l) :
    c ∈ s ∧ c ≠ '\n' := by
  induction s generalizing l with
  | nil =>
    simp only [splitOnNl, List.mem_singleton] at hl
    subst hl
    simp at hc
  | cons a rest ih =>
    unfold splitOnNl at hl
    by_cases ha : a = '\n'
    · simp only [ha, if_true, List.mem_cons] at hl
      rcases hl with rfl | hl
      · simp at hc
      · obtain ⟨h1, h2⟩ := ih hl hc
        exact ⟨List.mem_cons_of_mem _ h1, h2⟩
    · simp only [ha, if_false, List.mem_cons] at hl
      rcases hl with rfl | hl
      · rcases List.mem_cons.mp hc with rfl | hc2
        · exact ⟨List.mem_cons_self _ _, ha⟩
        · have hh : (splitOnNl rest).headD [] ∈ splitOnNl rest := by
            cases hr : splitOnNl rest with
            | nil => exact absurd hr (splitOnNl_ne_nil rest)
            | cons x xs => simp
          obtain ⟨h1, h2⟩ := ih hh hc2
          exact ⟨List.mem_cons_of_mem _ h1, h2⟩
      · have ht : l ∈ splitOnNl rest := by
          cases hr : splitOnNl rest with
          | nil => exact absurd hr (splitOnNl_ne_nil rest)
          | cons x xs => rw [hr] at hl; exact List.mem_cons_of_mem _ hl
        obtain ⟨h1, h2⟩ := ih ht hc
        exact ⟨List.mem_cons_of_mem _ h1, h2⟩

theorem normalizeLines_mem {t : Str} {l : Str} (hl : l ∈ normalizeLines t) :
    l ≠ [] ∧ ∀ c ∈ l, c ∈ t ∧ c ≠ '\n' := by
  unfold normalizeLines at hl
  rw [List.mem_filter] at hl
  obtain ⟨hmem, hne⟩ := hl
  rw [List.mem_map] at hmem
  obtain ⟨x, hx, rfl⟩ := hmem
  refine ⟨by simpa using hne, fun c hc => ?_⟩
  have hcx : c ∈ x := pyStrip_subset hc
  obtain ⟨h1, h2⟩ := splitOnNl_mem hx c hcx
  exact ⟨pyStrip_subset h1, h2⟩

/-! ### Lemmas on digit spans and float conversion -/

theorem digitSpan_append (s : Str) : (digitSpan s).1 ++ (digitSpan s).2 = s := by
  induction s with
  | nil => rfl
  | cons c rest ih =>
    unfold digitSpan
    by_cases h : c.isDigit <;> simp [h, ih]

theorem digitSpan_fst_digits {s : Str} : ∀ c ∈ (digitSpan s).1, c.isDigit = true := by
  induction s with
  | nil => simp [digitSpan]
  | cons c rest ih =>
    intro x hx
    unfold digitSpan at hx
    by_cases h : c.isDigit = true
    · simp only [h, if_true] at hx
      rcases List.mem_cons.mp hx with rfl | hx2
      · exact h
      · exact ih x hx2
    · simp only [h, if_false] at hx
      simp at hx

theorem digitSpan_snd_length (s : Str) : (digitSpan s).2.length ≤ s.length := by
  conv_rhs => rw [← digitSpan_append s]
  rw [List.length_append]
  omega

theorem digitSpan_of (ds r : Str) (hds : ∀ c ∈ ds, c.isDigit = true)
    (hr : ∀ c, r.head? = some c → c.isDigit = false) :
    digitSpan (ds ++ r) = (ds, r) := by
  induction ds with
  | nil =>
    cases r with
    | nil => rfl
    | cons c rest =>
      have := hr c (by simp)
      simp [digitSpan, this]
  | cons d ds' ih =>
    have hd : d.isDigit = true := hds d (by simp)
    have ih' := ih (fun c hc => hds c (by simp [hc]))
    simp [digitSpan, hd, ih']

theorem floatCore_digits {ds : Str} (h1 : ds ≠ []) (h2 : ∀ c ∈ ds, c.isDigit = true) :
    floatCore ds = some ((natOfDigits ds : ℚ)) := by
  have hspan : digitSpan ds = (ds, []) := by
    have := digitSpan_of ds [] h2 (by simp)
    simpa using this
  unfold floatCore
  rw [hspan]
  simp [parseExpPart, h1, expDigits]

theorem floatCore_digits_dot {ds fp : Str} (h1 : ds ≠ [] ∨ fp ≠ [])
    (h2 : ∀ c ∈ ds, c.isDigit = true) (h3 : ∀ c ∈ fp, c.isDigit = true) :
    floatCore (ds ++ '.' :: fp) =
      some ((natOfDigits ds : ℚ) + (natOfDigits fp : ℚ) / 10 ^ fp.length) := by
  have hspan : digitSpan (ds ++ '.' :: fp) = (ds, '.' :: fp) :=
    digitSpan_of ds ('.' :: fp) h2 (by intro c hc; simp at hc; subst hc; decide)
  have hfp : digitSpan fp = (fp, []) := by
    have := digitSpan_of fp [] h3 (by simp)
    simpa using this
  have hcond : ¬(ds = [] ∧ fp = []) := by
    rcases h1 with h1 | h1 <;> tauto
  unfold floatCore
  rw [hspan]
  simp [hfp, parseExpPart, hcond]

theorem floatCore_nonneg {t : Str} {q : ℚ} (h : floatCore t = some q) : 0 ≤ q := by
  unfold floatCore at h
  split at h
  · split at h
    · simp at h
    · rw [Option.map_eq_some'] at h
      obtain ⟨e, _, he⟩ := h
      subst he
      positivity
  · split at h
    · simp at h
    · rw [Option.map_eq_some'] at h
      obtain ⟨e, _, he⟩ := h
      subst he
      positivity

theorem floatOfString_nonneg {s : Str} {q : ℚ} (hm : '-' ∉ s)
    (h : floatOfString s = some q) : 0 ≤ q := by
  unfold floatOfString at h
  split at h
  · simp at h
  · rename_i c rest heq
    split at h
    · exact floatCore_nonneg h
    · split at h
      · rename_i hplus hminus
        exfalso
        apply hm
        apply pyStrip_subset (s := s)
        rw [heq, hminus]
        exact List.mem_cons_self _ _
      · exact floatCore_nonneg h

theorem floatOfString_eq_core {s : Str} (hfix : pyStrip s = s)
    (hh : ∀ c, s.head? = some c → c ≠ '+' ∧ c ≠ '-') : floatOfString s = floatCore s := by
  unfold floatOfString
  rw [hfix]
  cases s with
  | nil => simp [floatCore, digitSpan]
  | cons c rest =>
    obtain ⟨h1, h2⟩ := hh c (by simp)
    simp [h1, h2]

/-! ### Lemmas on rounding -/

theorem ratFloor_eq (q : ℚ) : q.floor = ⌊q⌋ := by
  rw [Rat.floor_def', Rat.floor_def]

theorem round2_eq (q : ℚ) : round2 q = ((round (q * 100) : ℤ) : ℚ) / 100 := by
  unfold round2
  rw [ratFloor_eq, round_eq]

theorem round2_nonneg {q : ℚ} (h : 0 ≤ q) : 0 ≤ round2 q := by
  rw [round2_eq]
  have h1 : (0:ℤ) ≤ round (q * 100) := by
    rw [round_eq]
    refine Int.le_floor.mpr ?_
    push_cast
    linarith
  have h2 : (0:ℚ) ≤ ((round (q * 100) : ℤ) : ℚ) := by exact_mod_cast h1
  positivity

theorem round2_exists_int (q : ℚ) : ∃ k : ℤ, round2 q = (k : ℚ) / 100 :=
  ⟨(q * 100 + 1 / 2).floor, rfl⟩

theorem round2_exists_nat {q : ℚ} (h : 0 ≤ q) : ∃ n : ℕ, round2 q = (n : ℚ) / 100 := by
  refine ⟨(round (q * 100)).toNat, ?_⟩
  rw [round2_eq]
  congr 1
  have h1 : (0:ℤ) ≤ round (q * 100) := by
    rw [round_eq]
    refine Int.le_floor.mpr ?_
    push_cast
    linarith
  exact_mod_cast (congrArg (fun z : ℤ => (z : ℚ)) (Int.toNat_of_nonneg h1)).symm

theorem round2_intCast_div (k : ℤ) : round2 ((k : ℚ) / 100) = (k : ℚ) / 100 := by
  rw [round2_eq]
  have h : ((k : ℚ) / 100) * 100 = (k : ℚ) := by
    field_simp
  rw [h, round_intCast]

theorem round2_idem (q : ℚ) : round2 (round2 q) = round2 q := by
  obtain ⟨k, hk⟩ := round2_exists_int q
  rw [hk, round2_intCast_div]

theorem round2_zero : round2 0 = 0 := by
  rw [round2_eq]
  norm_num

/-! ### Character classification helpers -/

theorem isDigit_not_ws {c : Char} (h : c.isDigit = true) : pyWs c = false := by
  by_contra hw
  rw [Bool.not_eq_false] at hw
  simp only [pyWs, Bool.or_eq_true, beq_iff_eq] at hw
  rcases hw with ((((rfl | rfl) | rfl) | rfl) | rfl) | rfl <;> simp at h

theorem isDigit_ne_comma_S {c : Char} (h : c.isDigit = true) :
    c ≠ ',' ∧ c ≠ 'S' ∧ c ≠ '+' ∧ c ≠ '-' ∧ c ≠ '.' ∧ c ≠ '$' := by
  refine ⟨?_, ?_, ?_, ?_, ?_, ?_⟩ <;> rintro rfl <;> simp at h

/-! ### Paired-line strategy lemmas -/

theorem pairedItems_mem : ∀ ls : List Str, ∀ it ∈ pairedItems ls,
    it.description ∈ ls ∧ isReserved it.description = false ∧
      ∃ p ∈ ls, ∃ q, floatOfString (cleanPrice p) = some q ∧ it.amount = round2 q
  | [], it, h => by simp [pairedItems] at h
  | [x], it, h => by simp [pairedItems] at h
  | d :: p :: rest, it, h => by
    rw [pairedItems] at h
    cases hf : floatOfString (cleanPrice p) with
    | none =>
      rw [hf] at h
      simp only at h
      obtain ⟨m1, m2, pp, hpp, hq⟩ := pairedItems_mem (p :: rest) it h
      exact ⟨List.mem_cons_of_mem _ m1, m2, pp, List.mem_cons_of_mem _ hpp, hq⟩
    | some q =>
      rw [hf] at h
      simp only at h
      by_cases hr : isReserved d = true
      · rw [if_pos hr] at h
        obtain ⟨m1, m2, pp, hpp, hq⟩ := pairedItems_mem (p :: rest) it h
        exact ⟨List.mem_cons_of_mem _ m1, m2, pp, List.mem_cons_of_mem _ hpp, hq⟩
      · rw [if_neg hr] at h
        rcases List.mem_cons.mp h with rfl | h2
        · exact ⟨List.mem_cons_self _ _, Bool.not_eq_true _ ▸ hr, p,
            List.mem_cons_of_mem _ (List.mem_cons_self _ _), q, hf, rfl⟩
        · obtain ⟨m1, m2, pp, hpp, hq⟩ := pairedItems_mem rest it h2
          exact ⟨List.mem_cons_of_mem _ (List.mem_cons_of_mem _ m1), m2, pp,
            List.mem_cons_of_mem _ (List.mem_cons_of_mem _ hpp), hq⟩

/-! ### Scanner lemmas (properties hold for every fuel value) -/

theorem scanAllF_prop {m : Str → Option (Str × Str)} {V : Str → Prop}
    (hmV : ∀ s t r, m s = some (t, r) → V t) :
    ∀ (fuel : ℕ) (s : Str), ∀ t ∈ scanAllF m fuel s, V t
  | 0, s => by simp [scanAllF]
  | fuel + 1, [] => by simp [scanAllF]
  | fuel + 1, c :: rest => by
    intro t ht
    rw [scanAllF] at ht
    cases hmc : m (c :: rest) with
    | none =>
      rw [hmc] at ht
      exact scanAllF_prop hmV fuel rest t ht
    | some tr =>
      obtain ⟨t0, r⟩ := tr
      rw [hmc] at ht
      simp only at ht
      rcases List.mem_cons.mp ht with rfl | ht2
      · exact hmV _ _ _ hmc
      · exact scanAllF_prop hmV fuel r t ht2

theorem scanAllF_subset {m : Str → Option (Str × Str)}
    (hm : ∀ s t r, m s = some (t, r) → (∀ c ∈ t, c ∈ s) ∧ (∀ c ∈ r, c ∈ s)) :
    ∀ (fuel : ℕ) (s : Str), ∀ t ∈ scanAllF m fuel s, ∀ c ∈ t, c ∈ s
  | 0, s => by simp [scanAllF]
  | fuel + 1, [] => by simp [scanAllF]
  | fuel + 1, c0 :: rest => by
    intro t ht c hc
    rw [scanAllF] at ht
    cases hmc : m (c0 :: rest) with
    | none =>
      rw [hmc] at ht
      exact List.mem_cons_of_mem _ (scanAllF_subset hm fuel rest t ht c hc)
    | some tr =>
      obtain ⟨t0, r⟩ := tr
      rw [hmc] at ht
      simp only at ht
      rcases List.mem_cons.mp ht with rfl | ht2
      · exact (hm _ _ _ hmc).1 c hc
      · exact (hm _ _ _ hmc).2 c (scanAllF_subset hm fuel r t ht2 c hc)

theorem subAllF_subset {m : Str → Option (Str × Str)}
    (hm : ∀ s t r, m s = some (t, r) → ∀ c ∈ r, c ∈ s) :
    ∀ (fuel : ℕ) (s : Str), ∀ c ∈ subAllF m fuel s, c ∈ s
  | 0, s => by simp [subAllF]
  | fuel + 1, [] => by simp [subAllF]
  | fuel + 1, c0 :: rest => by
    intro c hc
    rw [subAllF] at hc
    cases hmc : m (c0 :: rest) with
    | none =>
      rw [hmc] at hc
      simp only at hc
      rcases List.mem_cons.mp hc with rfl | hc2
      · exact List.mem_cons_self _ _
      · exact List.mem_cons_of_mem _ (subAllF_subset hm fuel rest c hc2)
    | some tr =>
      obtain ⟨t0, r⟩ := tr
      rw [hmc] at hc
      simp only at hc
      exact hm _ _ _ hmc c (subAllF_subset hm fuel r c hc)

/-! ### Matcher lemmas -/

theorem digitSpan_fst_subset {s : Str} : ∀ c ∈ (digitSpan s).1, c ∈ s := by
  intro c hc
  exact digitSpan_append s ▸ List.mem_append_left _ hc

theorem digitSpan_snd_subset {s : Str} : ∀ c ∈ (digitSpan s).2, c ∈ s := by
  intro c hc
  exact digitSpan_append s ▸ List.mem_append_right _ hc

theorem matchSep2_spec {sep : Char} {s t r : Str} (h : matchSep2 sep s = some (t, r)) :
    (∀ c ∈ t, c.isDigit = true ∨ c = sep) ∧ (∀ c ∈ t, c ∈ s) ∧ (∀ c ∈ r, c ∈ s) := by
  unfold matchSep2 at h
  split at h
  · rename_i c a b r3 heq
    split at h
    · rename_i hcond
      obtain ⟨hds, hc, ha, hb⟩ := hcond
      simp only [Option.some.injEq, Prod.mk.injEq] at h
      obtain ⟨ht, hr⟩ := h
      have hsub2 : ∀ x ∈ (digitSpan s).2, x ∈ s := digitSpan_snd_subset
      rw [← ht, ← hr]
      refine ⟨?_, ?_, ?_⟩
      · intro x hx
        rcases List.mem_append.mp hx with hx1 | hx2
        · exact Or.inl (digitSpan_fst_digits x hx1)
        · rcases List.mem_cons.mp hx2 with rfl | hx3
          · exact Or.inr hc
          · rcases List.mem_cons.mp hx3 with rfl | hx4
            · exact Or.inl ha
            · rcases List.mem_cons.mp hx4 with rfl | hx5
              · exact Or.inl hb
              · simp at hx5
      · intro x hx
        rcases List.mem_append.mp hx with hx1 | hx2
        · exact digitSpan_fst_subset x hx1
        · exact hsub2 x (by rw [heq]; simp only [List.mem_cons] at hx2 ⊢; tauto)
      · intro x hx
        exact hsub2 x (by rw [heq]; simp [hx])
    · simp at h
  · simp at h

theorem matchTotalNum_valid {s t r : Str} (h : matchTotalNum s = some (t, r)) :
    ∃ ds : Str, ds ≠ [] ∧ (∀ c ∈ ds, c.isDigit = true) ∧
      (t = ds ∨ ∃ c2 ds2, (c2 = '.' ∨ c2 = ',') ∧ (∀ c ∈ ds2, c.isDigit = true) ∧
        t = ds ++ c2 :: ds2) := by
  unfold matchTotalNum at h
  split at h
  · simp at h
  · rename_i hds
    split at h
    · rename_i c r2 heq
      split at h
      · rename_i hc
        simp only [Option.some.injEq, Prod.mk.injEq] at h
        obtain ⟨rfl, rfl⟩ := h
        exact ⟨(digitSpan s).1, hds, digitSpan_fst_digits,
          Or.inr ⟨c, (digitSpan r2).1, hc, digitSpan_fst_digits, rfl⟩⟩
      · simp only [Option.some.injEq, Prod.mk.injEq] at h
        obtain ⟨rfl, rfl⟩ := h
        exact ⟨_, hds, digitSpan_fst_digits, Or.inl rfl⟩
    · simp only [Option.some.injEq, Prod.mk.injEq] at h
      obtain ⟨rfl, rfl⟩ := h
      exact ⟨_, hds, digitSpan_fst_digits, Or.inl rfl⟩

/-! ### Bare-number scanner lemmas -/

theorem bareFindF_digits : ∀ (fuel : ℕ) (prevW : Bool) (s : Str),
    ∀ t ∈ bareFindF fuel prevW s, ∀ c ∈ t, c.isDigit = true
  | 0, _, _ => by simp [bareFindF]
  | _ + 1, _, [] => by simp [bareFindF]
  | fuel + 1, prevW, c0 :: rest => by
    intro t ht x hx
    rw [bareFindF] at ht
    split at ht
    · rename_i hcond
      have hc0 : c0.isDigit = true := (Bool.and_eq_true _ _ |>.mp hcond).1
      split at ht
      · rcases List.mem_singleton.mp ht with rfl
        rcases List.mem_cons.mp hx with rfl | hx2
        · exact hc0
        · exact digitSpan_fst_digits x hx2
      · split at ht
        · rcases List.mem_cons.mp ht with rfl | ht2
          · rcases List.mem_cons.mp hx with rfl | hx2
            · exact hc0
            · exact digitSpan_fst_digits x hx2
          · exact bareFindF_digits fuel true _ t ht2 x hx
        · exact bareFindF_digits fuel true rest t ht x hx
    · exact bareFindF_digits fuel (isWordChar c0) rest t ht x hx

theorem bareFindF_subset : ∀ (fuel : ℕ) (prevW : Bool) (s : Str),
    ∀ t ∈ bareFindF fuel prevW s, ∀ c ∈ t, c ∈ s
  | 0, _, _ => by simp [bareFindF]
  | _ + 1, _, [] => by simp [bareFindF]
  | fuel + 1, prevW, c0 :: rest => by
    intro t ht x hx
    rw [bareFindF] at ht
    split at ht
    · split at ht
      · rcases List.mem_singleton.mp ht with rfl
        rcases List.mem_cons.mp hx with rfl | hx2
        · exact List.mem_cons_self _ _
        · exact List.mem_cons_of_mem _ (digitSpan_fst_subset x hx2)
      · split at ht
        · rcases List.mem_cons.mp ht with rfl | ht2
          · rcases List.mem_cons.mp hx with rfl | hx2
            · exact List.mem_cons_self _ _
            · exact List.mem_cons_of_mem _ (digitSpan_fst_subset x hx2)
          · exact List.mem_cons_of_mem _
              (digitSpan_snd_subset x (bareFindF_subset fuel true _ t ht2 x hx))
        · exact List.mem_cons_of_mem _ (bareFindF_subset fuel true rest t ht x hx)
    · exact List.mem_cons_of_mem _ (bareFindF_subset fuel (isWordChar c0) rest t ht x hx)

theorem bareSubF_subset : ∀ (fuel : ℕ) (prevW : Bool) (s : Str),
    ∀ c ∈ bareSubF fuel prevW s, c ∈ s
  | 0, _, _ => by simp [bareSubF]
  | _ + 1, _, [] => by simp [bareSubF]
  | fuel + 1, prevW, c0 :: rest => by
    intro x hx
    rw [bareSubF] at hx
    split at hx
    · split at hx
      · simp at hx
      · split at hx
        · exact List.mem_cons_of_mem _
            (digitSpan_snd_subset x (bareSubF_subset fuel true _ x hx))
        · rcases List.mem_cons.mp hx with rfl | hx2
          · exact List.mem_cons_self _ _
          · exact List.mem_cons_of_mem _ (bareSubF_subset fuel true rest x hx2)
    · rcases List.mem_cons.mp hx with rfl | hx2
      · exact List.mem_cons_self _ _
      · exact List.mem_cons_of_mem _ (bareSubF_subset fuel (isWordChar c0) rest x hx2)

/-! ### Fallback strategy lemmas -/

theorem getLastD_mem {ms : List Str} (h : ms ≠ []) : ms.getLast?.getD [] ∈ ms := by
  cases hms : ms.getLast? with
  | none => exact absurd (List.getLast?_eq_none_iff.mp hms) h
  | some a =>
    simp only [Option.getD_some]
    exact List.mem_of_mem_getLast? (by rw [hms]; exact rfl)

theorem patAttempt_item {ms : List Str} {subbed line : Str} {it : LineItem}
    (hms_sub : ∀ t ∈ ms, ∀ c ∈ t, c ∈ line)
    (hms_val : ∀ t ∈ ms, ∀ c ∈ t, c.isDigit = true ∨ c = '.' ∨ c = ',')
    (hsub_sub : ∀ c ∈ subbed, c ∈ line)
    (h : patAttempt ms subbed = some (some it)) :
    it.description ≠ [] ∧ it.description.length ≤ 50 ∧ (∀ c ∈ it.description, c ∈ line) ∧
      ∃ s : Str, ∃ q : ℚ, (∀ c ∈ s, c ∈ line) ∧
        (∀ c ∈ s, c.isDigit = true ∨ c = '.' ∨ c = ',') ∧
        floatOfString (s.filter fun c => !(c == ',')) = some q ∧ it.amount = round2 q := by
  unfold patAttempt at h
  split at h
  · simp at h
  · rename_i hne
    rw [Option.map_eq_some'] at h
    obtain ⟨q, hq, hinner⟩ := h
    split at hinner
    · rename_i hguard
      simp only [Option.some.injEq] at hinner
      subst hinner
      obtain ⟨hd1, hd2⟩ := hguard
      have hlast : ms.getLast?.getD [] ∈ ms := getLastD_mem hne
      refine ⟨?_, ?_, ?_, ms.getLast?.getD [], q, hms_sub _ hlast, hms_val _ hlast, hq, rfl⟩
      · have hlen : ((pyStrip subbed).take 50).length = min 50 (pyStrip subbed).length := by
          simp [List.length_take]
        intro hnil
        have hnil2 : List.take 50 (pyStrip subbed) = [] := hnil
        rw [hnil2] at hlen
        simp at hlen
        omega
      · simp [List.length_take]
      · intro c hc
        exact hsub_sub c (pyStrip_subset (List.take_subset _ _ hc))
    · simp at hinner

theorem fallbackLine_spec {line : Str} {it : LineItem} (h : fallbackLine line = some it) :
    it.description ≠ [] ∧ it.description.length ≤ 50 ∧ (∀ c ∈ it.description, c ∈ line) ∧
      ∃ s : Str, ∃ q : ℚ, (∀ c ∈ s, c ∈ line) ∧
        (∀ c ∈ s, c.isDigit = true ∨ c = '.' ∨ c = ',') ∧
        floatOfString (s.filter fun c => !(c == ',')) = some q ∧ it.amount = round2 q := by
  have hdotV : ∀ t ∈ findSep2 '.' line, ∀ c ∈ t, c.isDigit = true ∨ c = '.' ∨ c = ',' := by
    intro t ht
    have := scanAllF_prop (V := fun t => ∀ c ∈ t, c.isDigit = true ∨ c = '.')
      (fun s t r hm => (matchSep2_spec hm).1) line.length line t ht
    intro c hc
    rcases this c hc with h1 | h1
    · exact Or.inl h1
    · exact Or.inr (Or.inl h1)
  have hcomV : ∀ t ∈ findSep2 ',' line, ∀ c ∈ t, c.isDigit = true ∨ c = '.' ∨ c = ',' := by
    intro t ht
    have := scanAllF_prop (V := fun t => ∀ c ∈ t, c.isDigit = true ∨ c = ',')
      (fun s t r hm => (matchSep2_spec hm).1) line.length line t ht
    intro c hc
    rcases this c hc with h1 | h1
    · exact Or.inl h1
    · exact Or.inr (Or.inr h1)
  have hdotS : ∀ t ∈ findSep2 '.' line, ∀ c ∈ t, c ∈ line :=
    scanAllF_subset (fun s t r hm => ⟨(matchSep2_spec hm).2.1, (matchSep2_spec hm).2.2⟩)
      line.length line
  have hcomS : ∀ t ∈ findSep2 ',' line, ∀ c ∈ t, c ∈ line :=
    scanAllF_subset (fun s t r hm => ⟨(matchSep2_spec hm).2.1, (matchSep2_spec hm).2.2⟩)
      line.length line
  have hdotSub : ∀ c ∈ subSep2 '.' line, c ∈ line :=
    subAllF_subset (fun s t r hm => (matchSep2_spec hm).2.2) line.length line
  have hcomSub : ∀ c ∈ subSep2 ',' line, c ∈ line :=
    subAllF_subset (fun s t r hm => (matchSep2_spec hm).2.2) line.length line
  have hbareV : ∀ t ∈ bareFind line, ∀ c ∈ t, c.isDigit = true ∨ c = '.' ∨ c = ',' := by
    intro t ht c hc
    exact Or.inl (bareFindF_digits line.length false line t ht c hc)
  have hbareS : ∀ t ∈ bareFind line, ∀ c ∈ t, c ∈ line :=
    bareFindF_subset line.length false line
  have hbareSub : ∀ c ∈ bareSub line, c ∈ line :=
    bareSubF_subset line.length false line
  unfold fallbackLine at h
  cases h1 : patAttempt (findSep2 '.' line) (subSep2 '.' line) with
  | some r =>
    rw [h1, Option.getD_some] at h
    rw [h] at h1
    exact patAttempt_item hdotS hdotV hdotSub h1
  | none =>
    rw [h1, Option.getD_none] at h
    cases h2 : patAttempt (findSep2 ',' line) (subSep2 ',' line) with
    | some r =>
      rw [h2, Option.getD_some] at h
      rw [h] at h2
      exact patAttempt_item hcomS hcomV hcomSub h2
    | none =>
      rw [h2, Option.getD_none] at h
      cases h3 : patAttempt (bareFind line) (bareSub line) with
      | some r =>
        rw [h3, Option.getD_some] at h
        rw [h] at h3
        exact patAttempt_item hbareS hbareV hbareSub h3
      | none =>
        rw [h3, Option.getD_none] at h
        simp at h

theorem fallbackItems_mem {lines : List Str} {it : LineItem} (h : it ∈ fallbackItems lines) :
    ∃ line ∈ lines, fallbackLine line = some it := by
  unfold fallbackItems at h
  exact List.mem_filterMap.mp h

/-! ### Total extraction lemmas -/

theorem head_of_append_ne_nil {ds rest : Str} (h : ds ≠ []) :
    ∀ c, (ds ++ rest).head? = some c → c ∈ ds := by
  cases ds with
  | nil => exact absurd rfl h
  | cons d ds' =>
    intro c hc
    simp only [List.cons_append, List.head?_cons, Option.some.injEq] at hc
    subst hc
    exact List.mem_cons_self _ _

theorem float_of_digit_string {es : Str} (hene : es ≠ []) (hedig : ∀ c ∈ es, c.isDigit = true) :
    floatOfString es = some ((natOfDigits es : ℚ)) := by
  have hfix : pyStrip es = es :=
    pyStrip_eq_self_of_all (fun c hc => isDigit_not_ws (hedig c hc))
  have hh : ∀ c, es.head? = some c → c ≠ '+' ∧ c ≠ '-' := by
    intro c hc
    have hcm : c ∈ es := by
      cases es with
      | nil => simp at hc
      | cons e es' =>
        simp only [List.head?_cons, Option.some.injEq] at hc
        subst hc
        exact List.mem_cons_self _ _
    obtain ⟨_, _, h3, h4, _, _⟩ := isDigit_ne_comma_S (hedig c hcm)
    exact ⟨h3, h4⟩
  rw [floatOfString_eq_core hfix hh, floatCore_digits hene hedig]

theorem totalTok_float {t : Str}
    (hv : ∃ ds : Str, ds ≠ [] ∧ (∀ c ∈ ds, c.isDigit = true) ∧
      (t = ds ∨ ∃ c2 ds2, (c2 = '.' ∨ c2 = ',') ∧ (∀ c ∈ ds2, c.isDigit = true) ∧
        t = ds ++ c2 :: ds2)) :
    ∃ q : ℚ, floatOfString (cleanTotalTok t) = some q ∧ 0 ≤ q := by
  obtain ⟨ds, hne, hdig, hshape⟩ := hv
  have hkeep : ∀ {es : Str}, (∀ c ∈ es, c.isDigit = true) →
      List.filter (fun c => !(c == ',' || c == 'S')) es = es := by
    intro es hd
    refine List.filter_eq_self.mpr fun c hc => ?_
    obtain ⟨h1, h2, _, _, _, _⟩ := isDigit_ne_comma_S (hd c hc)
    simp [h1, h2]
  rcases hshape with rfl | ⟨c2, ds2, hc2, hdig2, rfl⟩
  · unfold cleanTotalTok
    rw [hkeep hdig, float_of_digit_string hne hdig]
    exact ⟨_, rfl, Nat.cast_nonneg _⟩
  · rcases hc2 with rfl | rfl
    · have hstep : cleanTotalTok (ds ++ '.' :: ds2) = ds ++ '.' :: ds2 := by
        unfold cleanTotalTok
        rw [List.filter_append, hkeep hdig, List.filter_cons_of_pos (by decide), hkeep hdig2]
      have hWs : ∀ c ∈ ds ++ '.' :: ds2, pyWs c = false := by
        intro c hc
        rcases List.mem_append.mp hc with h1 | h1
        · exact isDigit_not_ws (hdig c h1)
        · rcases List.mem_cons.mp h1 with rfl | h2
          · decide
          · exact isDigit_not_ws (hdig2 c h2)
      have hfix : pyStrip (ds ++ '.' :: ds2) = ds ++ '.' :: ds2 := pyStrip_eq_self_of_all hWs
      have hh : ∀ c, (ds ++ '.' :: ds2).head? = some c → c ≠ '+' ∧ c ≠ '-' := by
        intro c hc
        obtain ⟨_, _, h3, h4, _, _⟩ := isDigit_ne_comma_S (hdig c (head_of_append_ne_nil hne c hc))
        exact ⟨h3, h4⟩
      rw [hstep, floatOfString_eq_core hfix hh, floatCore_digits_dot (Or.inl hne) hdig hdig2]
      refine ⟨_, rfl, ?_⟩
      positivity
    · have hstep : cleanTotalTok (ds ++ ',' :: ds2) = ds ++ ds2 := by
        unfold cleanTotalTok
        rw [List.filter_append, hkeep hdig, List.filter_cons_of_neg (by decide), hkeep hdig2]
      have hdig3 : ∀ c ∈ ds ++ ds2, c.isDigit = true := by
        intro c hc
        rcases List.mem_append.mp hc with h1 | h1
        · exact hdig c h1
        · exact hdig2 c h1
      rw [hstep, float_of_digit_string (by simp [hne]) hdig3]
      exact ⟨_, rfl, Nat.cast_nonneg _⟩

theorem totalNums_valid {line : Str} : ∀ t ∈ totalNums line,
    ∃ ds : Str, ds ≠ [] ∧ (∀ c ∈ ds, c.isDigit = true) ∧
      (t = ds ∨ ∃ c2 ds2, (c2 = '.' ∨ c2 = ',') ∧ (∀ c ∈ ds2, c.isDigit = true) ∧
        t = ds ++ c2 :: ds2) :=
  scanAllF_prop (fun _ _ _ hm => matchTotalNum_valid hm) line.length line

theorem extractTotalE_some : ∀ lines : List Str, ∃ q : ℚ, extractTotalE lines = some q ∧ 0 ≤ q
  | [] => ⟨0, rfl, le_refl 0⟩
  | line :: rest => by
    unfold extractTotalE
    by_cases ht : hasTotal line = true
    · rw [if_pos ht]
      by_cases hms : totalNums line = []
      · rw [if_pos hms]
        exact extractTotalE_some rest
      · rw [if_neg hms]
        exact totalTok_float (totalNums_valid _ (getLastD_mem hms))
    · rw [if_neg ht]
      exact extractTotalE_some rest

theorem extractTotalE_all_zero : ∀ lines : List Str,
    (∀ line ∈ lines, hasTotal line = false ∨ totalNums line = []) →
    extractTotalE lines = some 0
  | [], _ => rfl
  | line :: rest, h => by
    unfold extractTotalE
    have hrest := extractTotalE_all_zero rest (fun l hl => h l (List.mem_cons_of_mem _ hl))
    rcases h line (List.mem_cons_self _ _) with h1 | h1
    · rw [if_neg (by simp [h1]), hrest]
    · by_cases ht : hasTotal line = true
      · rw [if_pos ht, if_pos h1, hrest]
      · rw [if_neg ht, hrest]

theorem extractTotalE_skip {line : Str} {rest : List Str} (h1 : hasTotal line = true)
    (h2 : totalNums line = []) : extractTotalE (line :: rest) = extractTotalE rest := by
  conv_lhs => unfold extractTotalE
  rw [if_pos h1, if_pos h2]

/-! ### Decomposition of `parse` -/

theorem parse_spec (text : Str) : ∃ q : ℚ, extractTotalE (normalizeLines text) = some q ∧ 0 ≤ q ∧
    parseE text = some (parse text) ∧
    parse text = { items := if (pairedItems (normalizeLines text)).isEmpty
                            then fallbackItems (normalizeLines text)
                            else pairedItems (normalizeLines text),
                   total := round2 q } := by
  obtain ⟨q, hq, h0⟩ := extractTotalE_some (normalizeLines text)
  have hE : parseE text = some { items := if (pairedItems (normalizeLines text)).isEmpty
                                          then fallbackItems (normalizeLines text)
                                          else pairedItems (normalizeLines text),
                                 total := round2 q } := by
    unfold parseE
    rw [hq]
  have hp : parse text = { items := if (pairedItems (normalizeLines text)).isEmpty
                                    then fallbackItems (normalizeLines text)
                                    else pairedItems (normalizeLines text),
                           total := round2 q } := by
    unfold parse
    rw [hE]
    rfl
  exact ⟨q, hq, h0, by rw [hE, hp], hp⟩

theorem parse_items_cases {text : Str} {it : LineItem} (h : it ∈ (parse text).items) :
    it ∈ pairedItems (normalizeLines text) ∨ it ∈ fallbackItems (normalizeLines text) := by
  obtain ⟨q, _, _, _, hp⟩ := parse_spec text
  rw [hp] at h
  have h2 : it ∈ (if (pairedItems (normalizeLines text)).isEmpty
                  then fallbackItems (normalizeLines text)
                  else pairedItems (normalizeLines text)) := h
  by_cases he : (pairedItems (normalizeLines text)).isEmpty = true
  · rw [if_pos he] at h2
    exact Or.inr h2
  · rw [if_neg he] at h2
    exact Or.inl h2

/-! ### Claim theorems -/

/-- C1 counterexample: for the input `"Coffee\n4.50\nBagel\n3.25\nTotal\n7.75"` the
claim asserts `total = 7.75`, but the code only extracts a total from a line that
itself contains both the word "total" and a number; here "Total" and "7.75" are
separate lines, so the computed total is not `7.75` (it is `0.00`). -/
theorem c1_counterexample :
    (parseS "Coffee\n4.50\nBagel\n3.25\nTotal\n7.75").total ≠ 31 / 4 := by decide

/-- C1 amended: for the input `"Coffee\n4.50\nBagel\n3.25\nTotal\n7.75"`, the items
are `[{Coffee, 4.50}, {Bagel, 3.25}]` as claimed, but the total is `0.00`, because
the word "total" and the amount sit on different lines and the total scan only
takes a number from the same line. -/
theorem c1_amended :
    parseS "Coffee\n4.50\nBagel\n3.25\nTotal\n7.75" =
      { items := [{ description := "Coffee".data, amount := 9 / 2 },
                  { description := "Bagel".data, amount := 13 / 4 }],
        total := 0 } := by decide

/-- C2 counterexample: the input `"Total 7.75"` yields (via the fallback strategy,
which has no reserved-keyword filter) an item whose description "Total" lowercases
to a string starting with "total", contradicting the claim that such items are
never emitted by either strategy. -/
theorem c2_counterexample :
    (parseS "Total 7.75").items = [{ description := "Total".data, amount := 31 / 4 }] ∧
      (['t','o','t','a','l'] : Str).isPrefixOf (lowerStr "Total".data) = true :=
  ⟨by decide, by decide⟩

/-- C2 amended: the paired-line strategy never emits an item whose description's
lowercase form starts with a reserved keyword ("total", "amount", "change",
"cash"); the single-line fallback strategy has no such filter and can emit them. -/
theorem c2_amended (lines : List Str) (it : LineItem) (h : it ∈ pairedItems lines) :
    isReserved it.description = false :=
  (pairedItems_mem lines it h).2.1

/-- C2 amended, witness at a concrete input. -/
theorem c2_amended_witness :
    ({ description := "Coffee".data, amount := 9 / 2 } : LineItem) ∈
        pairedItems ["Coffee".data, "4.50".data] ∧
      isReserved "Coffee".data = false :=
  ⟨by decide, c2_amended ["Coffee".data, "4.50".data]
    { description := "Coffee".data, amount := 9 / 2 } (by decide)⟩

/-- C3: the code bug at the claim's input `"Bread 2,50\nMilk 1,20"`.  The fallback
comma pattern `(\d+,\d{2})` is meant for European decimal commas (per the spec's
Example 2, which expects 2.50 and 1.20), but the code converts the matched token
with `float(price_str.replace(",", ""))`, turning "2,50" into 250.0 and "1,20"
into 120.0 — one hundred times the intended amounts. -/
theorem c3_code_behavior :
    parseS "Bread 2,50\nMilk 1,20" =
      { items := [{ description := "Bread".data, amount := 250 },
                  { description := "Milk".data, amount := 120 }],
        total := 0 } := by decide

/-- C4 counterexample: the input `"Refund\n-5.00"` makes the paired strategy emit
an item with the negative amount -5.00 (Python `float` accepts a leading minus
sign), contradicting the claim that parsing never produces a negative amount. -/
theorem c4_counterexample :
    (parseS "Refund\n-5.00").items = [{ description := "Refund".data, amount := -5 }] ∧
      ¬(0 : ℚ) ≤ ({ description := "Refund".data, amount := -5 } : LineItem).amount :=
  ⟨by decide, by decide⟩

/-- C4 amended: if the input contains no minus sign then every emitted item has a
non-negative amount (under either strategy); moreover items of the fallback
strategy always have non-negative amounts, because its regex tokens consist only
of digits and separators. -/
theorem c4_amended :
    (∀ text : Str, '-' ∉ text → ∀ it ∈ (parse text).items, 0 ≤ it.amount) ∧
      ∀ lines : List Str, ∀ it ∈ fallbackItems lines, 0 ≤ it.amount := by
  have hfall : ∀ lines : List Str, ∀ it ∈ fallbackItems lines, 0 ≤ it.amount := by
    intro lines it hit
    obtain ⟨line, _, hfl⟩ := fallbackItems_mem hit
    obtain ⟨_, _, _, s, q, _, hval, hfloat, hamount⟩ := fallbackLine_spec hfl
    have hnm : '-' ∉ s.filter fun c => !(c == ',') := by
      intro hmem
      have hs : '-' ∈ s := List.mem_of_mem_filter hmem
      rcases hval _ hs with h1 | h1 | h1
      · simp at h1
      · simp at h1
      · simp at h1
    rw [hamount]
    exact round2_nonneg (floatOfString_nonneg hnm hfloat)
  refine ⟨?_, hfall⟩
  intro text hm it hit
  rcases parse_items_cases hit with h | h
  · obtain ⟨_, _, p, hp, q, hfloat, hamount⟩ := pairedItems_mem _ it h
    have hpm : ∀ c ∈ p, c ∈ text := fun c hc => ((normalizeLines_mem hp).2 c hc).1
    have hnm : '-' ∉ cleanPrice p := by
      intro hmem
      exact hm (hpm _ (List.mem_of_mem_filter hmem))
    rw [hamount]
    exact round2_nonneg (floatOfString_nonneg hnm hfloat)
  · exact hfall _ it h

/-- C4 amended, witness at a concrete input. -/
theorem c4_amended_witness :
    ('-' ∉ "Coffee\n4.50".data) ∧
      (0 : ℚ) ≤ ({ description := "Coffee".data, amount := 9 / 2 } : LineItem).amount :=
  ⟨by decide, c4_amended.1 "Coffee\n4.50".data (by decide) _ (by decide)⟩

/-- C5 counterexample: a 51-character description line followed by a price line is
emitted by the paired strategy without truncation (only the fallback strategy
truncates to 50 characters), contradicting the claim that every emitted
description has at most 50 characters. -/
theorem c5_counterexample :
    ((parseS "aaaaaaaaaaaaaaaaaaaaaaaaaaaaaaaaaaaaaaaaaaaaaaaaaaa\n5.00").items.map
        fun it => it.description.length) = [51] := by decide

/-- C5 amended: every emitted item has a non-empty description (under either
strategy), and every item of the fallback strategy has a description of at most
50 characters; the paired strategy does not truncate. -/
theorem c5_amended :
    (∀ text : Str, ∀ it ∈ (parse text).items, it.description ≠ []) ∧
      ∀ lines : List Str, ∀ it ∈ fallbackItems lines, it.description.length ≤ 50 := by
  constructor
  · intro text it hit
    rcases parse_items_cases hit with h | h
    · exact (normalizeLines_mem (pairedItems_mem _ it h).1).1
    · obtain ⟨line, _, hfl⟩ := fallbackItems_mem h
      exact (fallbackLine_spec hfl).1
  · intro lines it hit
    obtain ⟨line, _, hfl⟩ := fallbackItems_mem hit
    exact (fallbackLine_spec hfl).2.1

/-- C5 amended, witness at a concrete input. -/
theorem c5_amended_witness :
    ({ description := "Coffee".data, amount := 9 / 2 } : LineItem) ∈
        (parse "Coffee\n4.50".data).items ∧
      "Coffee".data ≠ [] :=
  ⟨by decide, c5_amended.1 "Coffee\n4.50".data
    { description := "Coffee".data, amount := 9 / 2 } (by decide)⟩

/-- C6: for every input the parsed total is a value with exactly two decimal
digits (an `n / 100` with `n : ℕ`, hence also non-negative — in particular
non-negative whenever a "total"-containing line with a numeric substring exists),
and the total is exactly 0.00 when no line both contains "total"
(case-insensitively) and holds a numeric substring. -/
theorem c6_total_shape (text : Str) :
    (∃ n : ℕ, (parse text).total = (n : ℚ) / 100) ∧
      ((∀ line ∈ normalizeLines text, hasTotal line = false ∨ totalNums line = []) →
        (parse text).total = 0) := by
  obtain ⟨q, hq, h0, _, hp⟩ := parse_spec text
  constructor
  · obtain ⟨n, hn⟩ := round2_exists_nat h0
    refine ⟨n, ?_⟩
    rw [hp]
    exact hn
  · intro hnone
    have hz := extractTotalE_all_zero _ hnone
    rw [hq] at hz
    have hq0 : q = 0 := Option.some.inj hz
    rw [hp]
    show round2 q = 0
    rw [hq0, round2_zero]

/-- C6, witness at a concrete input (no "total" line at all). -/
theorem c6_witness :
    (∀ line ∈ normalizeLines "Tea\n2.00".data, hasTotal line = false ∨ totalNums line = []) ∧
      (parse "Tea\n2.00".data).total = 0 :=
  ⟨by decide, (c6_total_shape "Tea\n2.00".data).2 (by decide)⟩

/-- C8: totality / no-raise.  `parseE` (in which `none` models an exception
escaping `parse_receipt_text`, the only candidate being the unguarded `float`
call in total extraction) returns `some` result for every input, and when the
normalized input has no lines the result is the worst-case `{items: [], total:
0.00}`. -/
theorem c8_total_no_raise (text : Str) :
    (∃ r : ParseResult, parseE text = some r) ∧
      (normalizeLines text = [] → parse text = { items := [], total := 0 }) := by
  obtain ⟨q, hq, h0, hE, hp⟩ := parse_spec text
  refine ⟨⟨parse text, hE⟩, fun hnil => ?_⟩
  rw [hnil] at hq
  have hq0 : q = 0 := by
    have h00 : extractTotalE [] = some 0 := rfl
    rw [h00] at hq
    exact (Option.some.inj hq).symm
  rw [hp, hnil, hq0, round2_zero]
  simp [pairedItems, fallbackItems]

/-- C8, witness at the empty input. -/
theorem c8_witness :
    (∃ r : ParseResult, parseE [] = some r) ∧ parse [] = { items := [], total := 0 } :=
  ⟨(c8_total_no_raise []).1, (c8_total_no_raise []).2 (by decide)⟩

/-- C9: when the normalized input has exactly one line, the paired strategy's
cursor loop (which needs at least two lines) emits nothing, so the items of the
result are exactly those of the single-line fallback strategy. -/
theorem c9_single_line (text : Str) (h : (normalizeLines text).length = 1) :
    pairedItems (normalizeLines text) = [] ∧
      (parse text).items = fallbackItems (normalizeLines text) := by
  obtain ⟨x, hx⟩ : ∃ x, normalizeLines text = [x] := by
    cases hL : normalizeLines text with
    | nil => rw [hL] at h; simp at h
    | cons a l =>
      rw [hL, List.length_cons] at h
      have hl : l = [] := List.length_eq_zero.mp (by omega)
      subst hl
      exact ⟨a, rfl⟩
  have hpaired : pairedItems (normalizeLines text) = [] := by rw [hx]; rfl
  refine ⟨hpaired, ?_⟩
  obtain ⟨q, _, _, _, hp⟩ := parse_spec text
  rw [hp]
  have hemp : (pairedItems (normalizeLines text)).isEmpty = true := by rw [hpaired]; rfl
  show (if (pairedItems (normalizeLines text)).isEmpty
        then fallbackItems (normalizeLines text)
        else pairedItems (normalizeLines text)) = fallbackItems (normalizeLines text)
  rw [if_pos hemp]

/-- C9, witness at a concrete single-line input. -/
theorem c9_witness :
    (normalizeLines "Coffee 4.50".data).length = 1 ∧
      pairedItems (normalizeLines "Coffee 4.50".data) = [] ∧
      (parse "Coffee 4.50".data).items = fallbackItems (normalizeLines "Coffee 4.50".data) :=
  ⟨by decide, (c9_single_line "Coffee 4.50".data (by decide)).1,
    (c9_single_line "Coffee 4.50".data (by decide)).2⟩

/-- C10: during total extraction, a line that contains "total" but has no
numeric match does not stop the scan (the extraction continues in the remaining
lines); a line that contains "total" and has a numeric match produces the total
from its last match. -/
theorem c10_total_scan (line : Str) (rest : List Str) (h1 : hasTotal line = true) :
    (totalNums line = [] → extractTotalE (line :: rest) = extractTotalE rest) ∧
      (totalNums line ≠ [] → extractTotalE (line :: rest) =
        floatOfString (cleanTotalTok ((totalNums line).getLast?.getD []))) := by
  constructor
  · exact fun h2 => extractTotalE_skip h1 h2
  · intro h2
    conv_lhs => unfold extractTotalE
    rw [if_pos h1, if_neg h2]

/-- C10, witness: a digitless "Subtotal:" line is skipped and the total comes
from the later "total 9.99" line. -/
theorem c10_witness :
    hasTotal "Subtotal:".data = true ∧ totalNums "Subtotal:".data = [] ∧
      extractTotalE ["Subtotal:".data, "total 9.99".data] =
        extractTotalE ["total 9.99".data] :=
  ⟨by decide, by decide, (c10_total_scan "Subtotal:".data _ (by decide)).1 (by decide)⟩

/-! ### Round-trip formatting lemmas -/

theorem head?_mem {α : Type} {l : List α} {a : α} (h : l.head? = some a) : a ∈ l := by
  cases l with
  | nil => simp at h
  | cons b r =>
    simp only [List.head?_cons, Option.some.injEq] at h
    subst h
    exact List.mem_cons_self _ _

theorem digitChar_isDigit {d : ℕ} (h : d < 10) : (digitChar d).isDigit = true := by
  interval_cases d <;> decide

theorem digitChar_toNat {d : ℕ} (h : d < 10) : (digitChar d).toNat = 48 + d := by
  interval_cases d <;> decide

theorem natOfDigits_append_singleton (xs : Str) (c : Char) :
    natOfDigits (xs ++ [c]) = natOfDigits xs * 10 + (c.toNat - 48) := by
  unfold natOfDigits
  rw [List.foldl_append]
  rfl

theorem natOfDigits_natDigitsF : ∀ fuel n : ℕ, n ≤ fuel →
    natOfDigits (natDigitsF fuel n).reverse = n
  | 0, n, h => by
    have hn : n = 0 := Nat.le_zero.mp h
    subst hn
    rfl
  | _ + 1, 0, _ => rfl
  | fuel + 1, n + 1, h => by
    rw [show natDigitsF (fuel + 1) (n + 1) =
        digitChar ((n + 1) % 10) :: natDigitsF fuel ((n + 1) / 10) from rfl]
    rw [List.reverse_cons, natOfDigits_append_singleton]
    have hdiv : (n + 1) / 10 ≤ fuel := by
      have := Nat.div_lt_self (Nat.succ_pos n) (by norm_num : 1 < 10)
      omega
    rw [natOfDigits_natDigitsF fuel ((n + 1) / 10) hdiv]
    rw [digitChar_toNat (Nat.mod_lt _ (by norm_num))]
    omega

theorem natOfDigits_natDigits (n : ℕ) : natOfDigits (natDigits n) = n :=
  natOfDigits_natDigitsF n n (le_refl n)

theorem natDigitsF_digits : ∀ fuel n : ℕ, ∀ c ∈ natDigitsF fuel n, c.isDigit = true
  | 0, _ => by simp [natDigitsF]
  | _ + 1, 0 => by simp [natDigitsF]
  | fuel + 1, n + 1 => by
    intro c hc
    rw [show natDigitsF (fuel + 1) (n + 1) =
        digitChar ((n + 1) % 10) :: natDigitsF fuel ((n + 1) / 10) from rfl] at hc
    rcases List.mem_cons.mp hc with rfl | hc2
    · exact digitChar_isDigit (Nat.mod_lt _ (by norm_num))
    · exact natDigitsF_digits fuel ((n + 1) / 10) c hc2

theorem natDigits_digits {n : ℕ} : ∀ c ∈ natDigits n, c.isDigit = true := by
  intro c hc
  rw [natDigits, List.mem_reverse] at hc
  exact natDigitsF_digits n n c hc

theorem fmtCents_chars {n : ℕ} : ∀ c ∈ fmtCents n, c.isDigit = true ∨ c = '.' := by
  intro c hc
  unfold fmtCents at hc
  rcases List.mem_append.mp hc with h1 | h1
  · exact Or.inl (natDigits_digits c h1)
  · rcases List.mem_cons.mp h1 with rfl | h2
    · exact Or.inr rfl
    · rcases List.mem_cons.mp h2 with rfl | h3
      · exact Or.inl (digitChar_isDigit (by omega))
      · rcases List.mem_cons.mp h3 with rfl | h4
        · exact Or.inl (digitChar_isDigit (by omega))
        · simp at h4

theorem fmtCents_floatCore (n : ℕ) : floatCore (fmtCents n) = some ((n : ℚ) / 100) := by
  have hfp : ∀ c ∈ ([digitChar (n % 100 / 10), digitChar (n % 100 % 10)] : Str),
      c.isDigit = true := by
    intro c hc
    rcases List.mem_cons.mp hc with rfl | h2
    · exact digitChar_isDigit (by omega)
    · rcases List.mem_cons.mp h2 with rfl | h3
      · exact digitChar_isDigit (by omega)
      · simp at h3
  unfold fmtCents
  rw [floatCore_digits_dot (Or.inr (by simp)) (fun c hc => natDigits_digits c hc) hfp]
  congr 1
  rw [natOfDigits_natDigits]
  have h2 : natOfDigits [digitChar (n % 100 / 10), digitChar (n % 100 % 10)] = n % 100 := by
    unfold natOfDigits
    simp only [List.foldl_cons, List.foldl_nil]
    rw [digitChar_toNat (by omega), digitChar_toNat (by omega)]
    omega
  rw [h2]
  rw [show ([digitChar (n % 100 / 10), digitChar (n % 100 % 10)] : Str).length = 2 from rfl]
  have hmod : n = 100 * (n / 100) + n % 100 := (Nat.div_add_mod n 100).symm
  have hcast : (n : ℚ) = 100 * ((n / 100 : ℕ) : ℚ) + ((n % 100 : ℕ) : ℚ) := by
    exact_mod_cast congrArg (fun m : ℕ => (m : ℚ)) hmod
  rw [hcast, show ((10 : ℚ) ^ (2 : ℕ)) = 100 by norm_num]
  ring

theorem fmtCents_float (n : ℕ) : floatOfString (fmtCents n) = some ((n : ℚ) / 100) := by
  have hWs : ∀ c ∈ fmtCents n, pyWs c = false := by
    intro c hc
    rcases fmtCents_chars c hc with h1 | rfl
    · exact isDigit_not_ws h1
    · decide
  have hfix : pyStrip (fmtCents n) = fmtCents n := pyStrip_eq_self_of_all hWs
  have hh : ∀ c, (fmtCents n).head? = some c → c ≠ '+' ∧ c ≠ '-' := by
    intro c hc
    rcases fmtCents_chars c (head?_mem hc) with h1 | rfl
    · obtain ⟨_, _, h3, h4, _, _⟩ := isDigit_ne_comma_S h1
      exact ⟨h3, h4⟩
    · exact ⟨by decide, by decide⟩
  rw [floatOfString_eq_core hfix hh, fmtCents_floatCore]

theorem fmtAmount_chars {q : ℚ} : ∀ c ∈ fmtAmount q, c.isDigit = true ∨ c = '.' ∨ c = '-' := by
  intro c hc
  unfold fmtAmount at hc
  split at hc
  · rcases List.mem_cons.mp hc with rfl | h2
    · exact Or.inr (Or.inr rfl)
    · rcases fmtCents_chars c h2 with h3 | h3
      · exact Or.inl h3
      · exact Or.inr (Or.inl h3)
  · rcases fmtCents_chars c hc with h3 | h3
    · exact Or.inl h3
    · exact Or.inr (Or.inl h3)

theorem fmtAmount_ne_nil {q : ℚ} : fmtAmount q ≠ [] := by
  unfold fmtAmount
  split
  · simp
  · unfold fmtCents
    simp

theorem fmtAmount_no_nl {q : ℚ} : '\n' ∉ fmtAmount q := by
  intro h
  rcases fmtAmount_chars _ h with h1 | h1 | h1 <;> exact absurd h1 (by decide)

theorem fmtAmount_float (k : ℤ) :
    floatOfString (fmtAmount ((k : ℚ) / 100)) = some ((k : ℚ) / 100) := by
  have hfloor : (((k : ℚ) / 100) * 100).floor = k := by
    rw [div_mul_cancel₀ _ (by norm_num : (100 : ℚ) ≠ 0), ratFloor_eq]
    exact Int.floor_intCast k
  unfold fmtAmount
  rw [hfloor]
  by_cases hk : k < 0
  · rw [if_pos hk]
    have hWs : ∀ c ∈ '-' :: fmtCents k.natAbs, pyWs c = false := by
      intro c hc
      rcases List.mem_cons.mp hc with rfl | h2
      · decide
      · rcases fmtCents_chars c h2 with h1 | rfl
        · exact isDigit_not_ws h1
        · decide
    have hfix : pyStrip ('-' :: fmtCents k.natAbs) = '-' :: fmtCents k.natAbs :=
      pyStrip_eq_self_of_all hWs
    have hstep : floatOfString ('-' :: fmtCents k.natAbs) =
        (floatCore (fmtCents k.natAbs)).map fun q => -q := by
      unfold floatOfString
      rw [hfix]
      rfl
    rw [hstep, fmtCents_floatCore]
    simp only [Option.map_some']
    congr 1
    have habs : ((k.natAbs : ℕ) : ℚ) = -(k : ℚ) := by
      rw [Int.cast_natAbs]
      have h2 : |k| = -k := abs_of_neg hk
      exact_mod_cast congrArg (fun z : ℤ => (z : ℚ)) h2
    rw [habs]
    ring
  · rw [if_neg hk, fmtCents_float]
    congr 1
    have h1 : ((k.toNat : ℕ) : ℚ) = (k : ℚ) := by
      have := Int.toNat_of_nonneg (not_lt.mp hk)
      exact_mod_cast congrArg (fun z : ℤ => (z : ℚ)) this
    rw [h1]

theorem pyStrip_eq_self_of {s : Str}
    (hh : ∀ c, s.head? = some c → pyWs c = false)
    (hl : ∀ c, s.getLast? = some c → pyWs c = false) : pyStrip s = s := by
  unfold pyStrip
  have h1 : s.dropWhile pyWs = s := by
    cases s with
    | nil => rfl
    | cons c r =>
      rw [List.dropWhile_cons, hh c (by simp)]
      simp
  rw [h1]
  have h2 : s.reverse.dropWhile pyWs = s.reverse := by
    cases hr : s.reverse with
    | nil => rfl
    | cons c r =>
      rw [List.dropWhile_cons]
      have hc : s.getLast? = some c := by
        rw [← List.head?_reverse, hr]
        rfl
      rw [hl c hc]
      simp
  rw [h2, List.reverse_reverse]

theorem splitOnNl_cons_nl (y : Str) : splitOnNl ('\n' :: y) = [] :: splitOnNl y := by
  conv_lhs => unfold splitOnNl
  rw [if_pos rfl]

theorem splitOnNl_cons_ne {c : Char} (hc : c ≠ '\n') (y : Str) :
    splitOnNl (c :: y) = (c :: (splitOnNl y).headD []) :: (splitOnNl y).tail := by
  conv_lhs => unfold splitOnNl
  rw [if_neg hc]

theorem splitOnNl_no_nl {x : Str} (h : '\n' ∉ x) : splitOnNl x = [x] := by
  induction x with
  | nil => rfl
  | cons c r ih =>
    have hc : c ≠ '\n' := fun e => h (e ▸ List.mem_cons_self _ _)
    have hr : '\n' ∉ r := fun e => h (List.mem_cons_of_mem _ e)
    rw [splitOnNl_cons_ne hc, ih hr]
    rfl

theorem splitOnNl_append {x y : Str} (h : '\n' ∉ x) :
    splitOnNl (x ++ '\n' :: y) = x :: splitOnNl y := by
  induction x with
  | nil =>
    rw [List.nil_append]
    exact splitOnNl_cons_nl y
  | cons c r ih =>
    have hc : c ≠ '\n' := fun e => h (e ▸ List.mem_cons_self _ _)
    have hr : '\n' ∉ r := fun e => h (List.mem_cons_of_mem _ e)
    rw [List.cons_append, splitOnNl_cons_ne hc, ih hr]
    rfl

theorem fmtItems_ne_nil : ∀ (it : LineItem) (rest : List LineItem),
    fmtItems (it :: rest) ≠ []
  | it, [] => by
    show it.description ++ ('\n' :: fmtAmount it.amount) ≠ []
    simp
  | it, it2 :: rest => by
    show it.description ++
      ('\n' :: (fmtAmount it.amount ++ ('\n' :: fmtItems (it2 :: rest)))) ≠ []
    simp

theorem splitOnNl_fmtItems : ∀ items : List LineItem,
    (∀ it ∈ items, '\n' ∉ it.description) →
    splitOnNl (fmtItems items) = if items = [] then [[]] else interleave items
  | [], _ => rfl
  | [it], hnl => by
    rw [if_neg (by simp)]
    show splitOnNl (it.description ++ ('\n' :: fmtAmount it.amount)) =
      [it.description, fmtAmount it.amount]
    rw [splitOnNl_append (hnl it (List.mem_cons_self _ _)), splitOnNl_no_nl fmtAmount_no_nl]
  | it :: it2 :: rest, hnl => by
    rw [if_neg (by simp)]
    show splitOnNl (it.description ++ ('\n' :: (fmtAmount it.amount ++ ('\n' ::
      fmtItems (it2 :: rest))))) =
      it.description :: fmtAmount it.amount :: interleave (it2 :: rest)
    rw [splitOnNl_append (hnl it (List.mem_cons_self _ _)), splitOnNl_append fmtAmount_no_nl]
    have ih := splitOnNl_fmtItems (it2 :: rest) (fun x hx => hnl x (List.mem_cons_of_mem _ hx))
    rw [if_neg (by simp)] at ih
    rw [ih]

theorem getLast?_cons_of_ne_nil {y : Str} (d : Char) (h : y ≠ []) :
    (d :: y).getLast? = y.getLast? := by
  cases y with
  | nil => exact absurd rfl h
  | cons a r => rfl

theorem fmtItems_getLast_not_ws : ∀ (it : LineItem) (rest : List LineItem),
    ∀ c, (fmtItems (it :: rest)).getLast? = some c → pyWs c = false
  | it, [], c, hc => by
    rw [show fmtItems [it] = it.description ++ ('\n' :: fmtAmount it.amount) from rfl,
      List.getLast?_append_of_ne_nil _ (by simp),
      getLast?_cons_of_ne_nil _ fmtAmount_ne_nil] at hc
    have hmem : c ∈ fmtAmount it.amount := List.mem_of_mem_getLast? (by rw [hc]; exact rfl)
    rcases fmtAmount_chars c hmem with h1 | h1 | h1
    · exact isDigit_not_ws h1
    · subst h1; decide
    · subst h1; decide
  | it, it2 :: rest, c, hc => by
    rw [show fmtItems (it :: it2 :: rest) = it.description ++
        ('\n' :: (fmtAmount it.amount ++ ('\n' :: fmtItems (it2 :: rest)))) from rfl,
      List.getLast?_append_of_ne_nil _ (by simp),
      getLast?_cons_of_ne_nil _ (by simp),
      List.getLast?_append_of_ne_nil _ (by simp),
      getLast?_cons_of_ne_nil _ (fmtItems_ne_nil it2 rest)] at hc
    exact fmtItems_getLast_not_ws it2 rest c hc

theorem fmtAmount_strip_fixed {q : ℚ} : pyStrip (fmtAmount q) = fmtAmount q := by
  refine pyStrip_eq_self_of_all ?_
  intro c hc
  rcases fmtAmount_chars c hc with h1 | h1 | h1
  · exact isDigit_not_ws h1
  · subst h1; decide
  · subst h1; decide

theorem interleave_map_filter : ∀ items : List LineItem,
    (∀ it ∈ items, it.description ≠ [] ∧ pyStrip it.description = it.description) →
    ((interleave items).map pyStrip).filter (fun l => !l.isEmpty) = interleave items
  | [], _ => rfl
  | it :: rest, h => by
    obtain ⟨hd1, hd2⟩ := h it (List.mem_cons_self _ _)
    show ((it.description :: fmtAmount it.amount :: interleave rest).map pyStrip).filter
        (fun l => !l.isEmpty) = it.description :: fmtAmount it.amount :: interleave rest
    simp only [List.map_cons, hd2, fmtAmount_strip_fixed]
    rw [List.filter_cons_of_pos (by simpa using hd1),
      List.filter_cons_of_pos (by simpa using (fmtAmount_ne_nil (q := it.amount))),
      interleave_map_filter rest (fun x hx => h x (List.mem_cons_of_mem _ hx))]

theorem normalizeLines_fmtItems (items : List LineItem)
    (h : ∀ it ∈ items, it.description ≠ [] ∧ pyStrip it.description = it.description ∧
      '\n' ∉ it.description) :
    normalizeLines (fmtItems items) = interleave items := by
  cases items with
  | nil => rfl
  | cons it rest =>
    have houter : pyStrip (fmtItems (it :: rest)) = fmtItems (it :: rest) := by
      refine pyStrip_eq_self_of ?_ (fmtItems_getLast_not_ws it rest)
      intro c hc
      obtain ⟨hd1, hd2, _⟩ := h it (List.mem_cons_self _ _)
      obtain ⟨ys, hys⟩ : ∃ ys : Str, fmtItems (it :: rest) = it.description ++ ys := by
        cases rest with
        | nil => exact ⟨_, rfl⟩
        | cons it2 r2 => exact ⟨_, rfl⟩
      rw [hys] at hc
      have hcd : it.description.head? = some c := by
        cases hdesc : it.description with
        | nil => exact absurd hdesc hd1
        | cons d dr =>
          rw [hdesc, List.cons_append, List.head?_cons] at hc
          rw [List.head?_cons]
          exact hc
      exact head_not_ws_of_strip_fixed hd2 hcd
    unfold normalizeLines
    rw [houter, splitOnNl_fmtItems (it :: rest) (fun x hx => (h x hx).2.2),
      if_neg (by simp)]
    exact interleave_map_filter (it :: rest)
      (fun x hx => ⟨(h x hx).1, (h x hx).2.1⟩)

theorem cleanPrice_fmtAmount {q : ℚ} : cleanPrice (fmtAmount q) = fmtAmount q := by
  unfold cleanPrice
  refine List.filter_eq_self.mpr fun c hc => ?_
  rcases fmtAmount_chars c hc with h1 | h1 | h1
  · obtain ⟨hc1, hc2, _, _, _, hc3⟩ := isDigit_ne_comma_S h1
    simp [hc1, hc2, hc3]
  · subst h1; decide
  · subst h1; decide

theorem pairedItems_interleave : ∀ items : List LineItem,
    (∀ it ∈ items, isReserved it.description = false ∧ ∃ k : ℤ, it.amount = (k : ℚ) / 100) →
    pairedItems (interleave items) = items
  | [], _ => rfl
  | it :: rest, h => by
    obtain ⟨hres, k, hk⟩ := h it (List.mem_cons_self _ _)
    show pairedItems (it.description :: fmtAmount it.amount :: interleave rest) = it :: rest
    have hfloat : floatOfString (cleanPrice (fmtAmount it.amount)) = some ((k : ℚ) / 100) := by
      rw [cleanPrice_fmtAmount, hk, fmtAmount_float]
    show (match floatOfString (cleanPrice (fmtAmount it.amount)) with
      | some q =>
        if isReserved it.description then
          pairedItems (fmtAmount it.amount :: interleave rest)
        else { description := it.description, amount := round2 q } ::
          pairedItems (interleave rest)
      | none => pairedItems (fmtAmount it.amount :: interleave rest)) = it :: rest
    rw [hfloat]
    show (if isReserved it.description then
        pairedItems (fmtAmount it.amount :: interleave rest)
      else { description := it.description, amount := round2 ((k : ℚ) / 100) } ::
        pairedItems (interleave rest)) = it :: rest
    rw [if_neg (by simp [hres]), round2_intCast_div,
      pairedItems_interleave rest (fun x hx => h x (List.mem_cons_of_mem _ hx))]
    congr 1
    rw [← hk]

/-- C7 counterexample: the claim fails on the input `"Total 7.75"`.  The fallback
strategy emits the item `{"Total", 7.75}`, but re-parsing the formatted pair
`"Total\n7.75"` through the paired-line strategy skips the reserved-keyword
description and reproduces nothing. -/
theorem c7_counterexample :
    (parseS "Total 7.75").items ≠ [] ∧
      pairedItems (normalizeLines (fmtItems (parseS "Total 7.75").items)) = [] :=
  ⟨by decide, by decide⟩

/-- C7 amended: the round trip holds for parses whose item descriptions do not
start (lowercased) with a reserved keyword and are whitespace-trimmed:
formatting each parsed item back as a "description\namount" line pair and
re-parsing through the paired-line strategy reproduces the item list exactly.
(The two extra conditions are forced: the fallback strategy can emit
reserved-keyword descriptions, which the paired re-parse skips, and its
50-character truncation can leave a trailing space that re-normalization would
trim away.) -/
theorem c7_amended (text : Str)
    (h : ∀ it ∈ (parse text).items,
      isReserved it.description = false ∧ pyStrip it.description = it.description) :
    pairedItems (normalizeLines (fmtItems (parse text).items)) = (parse text).items := by
  have hinv : ∀ it ∈ (parse text).items, it.description ≠ [] ∧ '\n' ∉ it.description ∧
      ∃ k : ℤ, it.amount = (k : ℚ) / 100 := by
    intro it hit
    rcases parse_items_cases hit with hcase | hcase
    · obtain ⟨hd, _, p, hp, q, _, ha⟩ := pairedItems_mem _ it hcase
      obtain ⟨hne, hchars⟩ := normalizeLines_mem hd
      refine ⟨hne, fun hnl => (hchars _ hnl).2 rfl, ?_⟩
      obtain ⟨k, hk⟩ := round2_exists_int q
      exact ⟨k, ha.trans hk⟩
    · obtain ⟨line, hline, hfl⟩ := fallbackItems_mem hcase
      obtain ⟨hne, _, hsub, s, q, _, _, _, ha⟩ := fallbackLine_spec hfl
      refine ⟨hne, fun hnl => ((normalizeLines_mem hline).2 _ (hsub _ hnl)).2 rfl, ?_⟩
      obtain ⟨k, hk⟩ := round2_exists_int q
      exact ⟨k, ha.trans hk⟩
  rw [normalizeLines_fmtItems _
    (fun it hit => ⟨(hinv it hit).1, (h it hit).2, (hinv it hit).2.1⟩)]
  exact pairedItems_interleave _ (fun it hit => ⟨(h it hit).1, (hinv it hit).2.2⟩)

/-- C7 amended, witness at a concrete input. -/
theorem c7_amended_witness :
    (∀ it ∈ (parse "Coffee\n4.50".data).items,
      isReserved it.description = false ∧ pyStrip it.description = it.description) ∧
      pairedItems (normalizeLines (fmtItems (parse "Coffee\n4.50".data).items)) =
        (parse "Coffee\n4.50".data).items :=
  ⟨by decide, c7_amended "Coffee\n4.50".data (by decide)⟩

end FinanceTracker
